import Mathlib

/-!
Verification of the `bitos` bit-width-generic integer library.

Machine words are embedded as bit patterns of type `Nat`; a native word of
the storage class with `W` bits is a `Nat` strictly below `2 ^ W`.  Signed
storage words are represented by their bit pattern together with the
two's-complement interpretation `toInt`.  All definitions are transcribed
from `bitos_core/src/integer.rs`, `bitos_core/src/lib.rs` and the code
generated by `bitos_macro_core/src/enum_.rs` / `struct_.rs`, except the
`BitUtils` bit-range primitive (the `bitut` dependency), which is modelled
from the specification of the Bit-Range Primitive contract.
-/

namespace Bitos

/-- `unsigned_mask(bits) = (1 << bits) - 1` from `integer.rs`. -/
def unsigned_mask (bits : Nat) : Nat := 2 ^ bits - 1

/-- The native cast `value as uW` (also `<uW as UnsignedInt>::new`):
keeps the low `W` bits. -/
def UnsignedInt.new (W value : Nat) : Nat := value % 2 ^ W

/-- Two's-complement interpretation of a `W`-bit pattern as a signed
native value (`i8`/`i16`/`i32`/`i64`). -/
def toInt (W p : Nat) : Int := if p < 2 ^ (W - 1) then (p : Int) else (p : Int) - 2 ^ W

/-- Bit pattern of a signed native value of width `W` (the cast
`x as iW` at pattern level). -/
def ofInt (W : Nat) (x : Int) : Nat := (x % ((2 : Int) ^ W)).toNat

/-- Storage selection: the smallest native width among 8/16/32/64 that is
at least the requested bit length (`IsStorageForBits` table). -/
def storageBits (len : Nat) : Nat :=
  if len ≤ 8 then 8 else if len ≤ 16 then 16 else if len ≤ 32 then 32 else 64

/-- Modelled from the spec: `BitUtils::bit` of the `bitut` crate (not part
of this repository's sources) — whether bit `index` of `self` is set. -/
def BitUtils.bit (self index : Nat) : Bool := self.testBit index

/-- Modelled from the spec: checked variant of `BitUtils::bit` on a word
of width `W`; absent when `index` is out of range. -/
def BitUtils.try_bit (W self index : Nat) : Option Bool :=
  if index < W then some (self.testBit index) else none

/-- Modelled from the spec: `BitUtils::with_bit` on a word of width `W` —
a copy of `self` with bit `index` set to `value`. -/
def BitUtils.with_bit (W self index : Nat) (value : Bool) : Nat :=
  if value then self ||| (1 <<< index)
  else self &&& (unsigned_mask W ^^^ (1 <<< index))

/-- Modelled from the spec: checked variant of `BitUtils::with_bit`. -/
def BitUtils.try_with_bit (W self index : Nat) (value : Bool) : Option Nat :=
  if index < W then some (BitUtils.with_bit W self index value) else none

/-- Modelled from the spec: `BitUtils::bits` — the sub-range
`[start, end)` of `self`, right-shifted to start at bit 0, zero-extended. -/
def BitUtils.bits (self start e : Nat) : Nat :=
  (self >>> start) &&& unsigned_mask (e - start)

/-- Modelled from the spec: checked variant of `BitUtils::bits` on a word
of width `W`; absent unless `start ≤ e ≤ W`. -/
def BitUtils.try_bits (W self start e : Nat) : Option Nat :=
  if start ≤ e ∧ e ≤ W then some (BitUtils.bits self start e) else none

/-- Modelled from the spec: `BitUtils::with_bits` on a word of width `W` —
a copy of `self` with the sub-range `[start, e)` replaced by the low
`e - start` bits of `value`, bits outside the range untouched. -/
def BitUtils.with_bits (W self start e value : Nat) : Nat :=
  (self &&& (unsigned_mask W ^^^ (unsigned_mask (e - start) <<< start))) |||
    ((value &&& unsigned_mask (e - start)) <<< start)

/-- Modelled from the spec: checked variant of `BitUtils::with_bits`. -/
def BitUtils.try_with_bits (W self start e value : Nat) : Option Nat :=
  if start ≤ e ∧ e ≤ W then some (BitUtils.with_bits W self start e value) else none

/-- `UInt::<T, LEN>::new` where `T` has `W` bits:
`Self(value & T::new(unsigned_mask(LEN)))`. -/
def UInt.new (W LEN value : Nat) : Nat :=
  value &&& UnsignedInt.new W (unsigned_mask LEN)

/-- `UInt::value`: returns the stored backing word. -/
def UInt.value (v : Nat) : Nat := v

/-- `impl TryFrom<u64> for UInt<T, LEN>`: succeeds iff the input does not
exceed `unsigned_mask LEN`; `none` models `Err(ValueDoesNotFitErr)`. -/
def UInt.try_from (W LEN v : Nat) : Option Nat :=
  if v ≤ unsigned_mask LEN then some (UInt.new W LEN (UnsignedInt.new W v)) else none

/-- `<UInt<T, LEN> as BitUtils>::bit`: delegates to the backing word. -/
def UInt.bit (self index : Nat) : Bool := BitUtils.bit self index

/-- `<UInt<T, LEN> as BitUtils>::try_bit`: delegates to the backing word. -/
def UInt.try_bit (W : Nat) (self index : Nat) : Option Bool := BitUtils.try_bit W self index

/-- `<UInt<T, LEN> as BitUtils>::with_bit`: delegate, then renormalize. -/
def UInt.with_bit (W LEN self index : Nat) (value : Bool) : Nat :=
  UInt.new W LEN (BitUtils.with_bit W self index value)

/-- `<UInt<T, LEN> as BitUtils>::try_with_bit`. -/
def UInt.try_with_bit (W LEN self index : Nat) (value : Bool) : Option Nat :=
  (BitUtils.try_with_bit W self index value).map (UInt.new W LEN)

/-- `<UInt<T, LEN> as BitUtils>::bits`: delegate, then renormalize. -/
def UInt.bits (W LEN self start e : Nat) : Nat :=
  UInt.new W LEN (BitUtils.bits self start e)

/-- `<UInt<T, LEN> as BitUtils>::try_bits`. -/
def UInt.try_bits (W LEN self start e : Nat) : Option Nat :=
  (BitUtils.try_bits W self start e).map (UInt.new W LEN)

/-- `<UInt<T, LEN> as BitUtils>::with_bits`: delegate on the stored words,
then renormalize. -/
def UInt.with_bits (W LEN self start e value : Nat) : Nat :=
  UInt.new W LEN (BitUtils.with_bits W self start e (UInt.value value))

/-- `<UInt<T, LEN> as BitUtils>::try_with_bits`. -/
def UInt.try_with_bits (W LEN self start e value : Nat) : Option Nat :=
  (BitUtils.try_with_bits W self start e (UInt.value value)).map (UInt.new W LEN)

/-- `SInt::<T, LEN>::new` where `T` has `W` bits, at bit-pattern level:
mask to the low `LEN` bits (`value & T::new(signed_mask(LEN))`), shift
left by `rem = T::BITS - LEN`, then arithmetic-shift right by `rem`
(floor division of the signed interpretation). -/
def SInt.new (W LEN p : Nat) : Nat :=
  ofInt W (Int.fdiv (toInt W (((p &&& (unsigned_mask LEN % 2 ^ W)) <<< (W - LEN)) % 2 ^ W))
    ((2 : Int) ^ (W - LEN)))

/-- `SInt::value`: the stored (already sign-extended) native signed word. -/
def SInt.value (W p : Nat) : Int := toInt W p

/-- `<SInt<T, LEN> as BitUtils>::bit`. -/
def SInt.bit (self index : Nat) : Bool := BitUtils.bit self index

/-- `<SInt<T, LEN> as BitUtils>::try_bit`. -/
def SInt.try_bit (W : Nat) (self index : Nat) : Option Bool := BitUtils.try_bit W self index

/-- `<SInt<T, LEN> as BitUtils>::with_bit`: delegate, then renormalize
through `SInt::new`. -/
def SInt.with_bit (W LEN self index : Nat) (value : Bool) : Nat :=
  SInt.new W LEN (BitUtils.with_bit W self index value)

/-- `<SInt<T, LEN> as BitUtils>::try_with_bit`. -/
def SInt.try_with_bit (W LEN self index : Nat) (value : Bool) : Option Nat :=
  (BitUtils.try_with_bit W self index value).map (SInt.new W LEN)

/-- `<SInt<T, LEN> as BitUtils>::bits`: delegate on the stored pattern,
then renormalize through `SInt::new`. -/
def SInt.bits (W LEN self start e : Nat) : Nat :=
  SInt.new W LEN (BitUtils.bits self start e)

/-- `<SInt<T, LEN> as BitUtils>::try_bits`. -/
def SInt.try_bits (W LEN self start e : Nat) : Option Nat :=
  (BitUtils.try_bits W self start e).map (SInt.new W LEN)

/-- `<SInt<T, LEN> as BitUtils>::with_bits`: `value.value()` is the stored
signed word, whose bit pattern is `value`'s stored pattern. -/
def SInt.with_bits (W LEN self start e value : Nat) : Nat :=
  SInt.new W LEN (BitUtils.with_bits W self start e value)

/-- `<SInt<T, LEN> as BitUtils>::try_with_bits`. -/
def SInt.try_with_bits (W LEN self start e value : Nat) : Option Nat :=
  (BitUtils.try_with_bits W self start e value).map (SInt.new W LEN)

/-- `<UInt<T, LEN> as TryBits>::into_bits`: identity. -/
def UInt.into_bits (v : Nat) : Nat := v

/-- `<UInt<T, LEN> as TryBits>::try_from_bits`: always present. -/
def UInt.try_from_bits (v : Nat) : Option Nat := some v

/-- `<UInt<T, LEN> as Bits>::from_bits`: identity. -/
def UInt.from_bits (v : Nat) : Nat := v

/-- `<SInt<T, LEN> as TryBits>::into_bits`:
`UInt::<uT, LEN>::new(self.value() as uT)` — reinterpret the stored
sign-extended pattern as unsigned, then mask to `LEN` bits. -/
def SInt.into_bits (W LEN p : Nat) : Nat := UInt.new W LEN p

/-- `<SInt<T, LEN> as Bits>::from_bits`: `Self::new(value.value() as T)`. -/
def SInt.from_bits (W LEN v : Nat) : Nat := SInt.new W LEN v

/-- `<SInt<T, LEN> as TryBits>::try_from_bits`: always present. -/
def SInt.try_from_bits (W LEN v : Nat) : Option Nat := some (SInt.from_bits W LEN v)

/-- `<bool as TryBits>::into_bits`: `u1::new(self.into())` where `u1`
is `UInt<u8, 1>`. -/
def bool_into_bits (b : Bool) : Nat := UInt.new 8 1 (if b then 1 else 0)

/-- `<bool as Bits>::from_bits`: `value.value() == 1`. -/
def bool_from_bits (v : Nat) : Bool := UInt.value v == 1

/-- Generated `#[bitos(N)]` struct `to_bits`: returns the inner storage
word (`self.0`, `repr(transparent)`). -/
def BitStruct.to_bits (v : Nat) : Nat := v

/-- Generated `#[bitos(N)]` struct `from_bits`: wraps the given storage
word (`Self(value, ..)`). -/
def BitStruct.from_bits (v : Nat) : Nat := v

/-- Generated `#[bitos(N)]` struct `try_from_bits`: always present. -/
def BitStruct.try_from_bits (v : Nat) : Option Nat := some v

/-- A `#[bitos(bitlen)]` enum, given by the `u64` values of its variant
discriminants in declaration order; a variant is its index in `discs`. -/
structure BitEnum where
  bitlen : Nat
  discs : List Nat

/-- The generated `match` of `try_from_bits`: the scrutinee is compared
with each variant's (unmasked) discriminant constant, in order; the first
matching arm wins, the default arm yields `None`. -/
def match_discs : List Nat → Nat → Option Nat
  | [], _ => none
  | d :: rest, v => if v = d then some 0 else (match_discs rest v).map (· + 1)

/-- Generated `<Enum as TryBits>::into_bits`:
`<uBITLEN as UnsignedInt>::new(self as u64)`. -/
def BitEnum.into_bits (spec : BitEnum) (i : Nat) : Nat :=
  UInt.new (storageBits spec.bitlen) spec.bitlen
    (UnsignedInt.new (storageBits spec.bitlen) (spec.discs.getD i 0))

/-- Generated `<Enum as TryBits>::try_from_bits`: match the stored value
of the raw `uBITLEN` against the discriminant constants. -/
def BitEnum.try_from_bits (spec : BitEnum) (v : Nat) : Option Nat :=
  match_discs spec.discs (UInt.value v)

/-- The condition under which `enum_.rs` emits the total `Bits::from_bits`
implementation: `2usize.pow(bitlen) == variants.len()`. -/
def BitEnum.generates_from_bits (spec : BitEnum) : Bool :=
  2 ^ spec.bitlen == spec.discs.length

/-- Generated `<Enum as Bits>::from_bits` (only emitted when
`generates_from_bits`): `try_from_bits(value).unwrap_unchecked()`.  The
`Option` is kept: `none` marks the undefined-behavior case. -/
def BitEnum.from_bits (spec : BitEnum) (v : Nat) : Option Nat :=
  BitEnum.try_from_bits spec v

/-! ### Basic arithmetic helpers -/

theorem land_mask (a n : Nat) : a &&& (2 ^ n - 1) = a % 2 ^ n := by
  apply Nat.eq_of_testBit_eq
  intro i
  simp [Nat.testBit_land, Nat.testBit_two_pow_sub_one, Nat.testBit_mod_two_pow, Bool.and_comm]

theorem mask_mod {LEN W : Nat} (h : LEN ≤ W) : unsigned_mask LEN % 2 ^ W = 2 ^ LEN - 1 := by
  have h1 : (2 : Nat) ^ LEN ≤ 2 ^ W := Nat.pow_le_pow_right (by norm_num) h
  have h2 : 0 < (2 : Nat) ^ LEN := Nat.two_pow_pos LEN
  unfold unsigned_mask
  exact Nat.mod_eq_of_lt (by omega)

theorem testBit_false_of_lt {a n i : Nat} (ha : a < 2 ^ n) (hi : n ≤ i) :
    a.testBit i = false :=
  Nat.testBit_lt_two_pow (lt_of_lt_of_le ha (Nat.pow_le_pow_right (by norm_num) hi))

theorem UInt.new_eq_mod {W LEN : Nat} (h : LEN ≤ W) (x : Nat) :
    UInt.new W LEN x = x % 2 ^ LEN := by
  unfold UInt.new UnsignedInt.new
  rw [mask_mod h, land_mask]

theorem UInt.new_lt {W LEN : Nat} (h : LEN ≤ W) (x : Nat) :
    UInt.new W LEN x < 2 ^ LEN := by
  rw [UInt.new_eq_mod h]
  exact Nat.mod_lt _ (Nat.two_pow_pos LEN)

theorem ofInt_natCast {W : Nat} {p : Nat} (hp : p < 2 ^ W) : ofInt W (p : Int) = p := by
  unfold ofInt
  rw [Int.emod_eq_of_lt (by positivity) (by exact_mod_cast hp)]
  exact Int.toNat_natCast p

/-- Closed form of `SInt::new`: mask to the low `LEN` bits, then
sign-extend from bit `LEN - 1` into all the bits of the storage word. -/
theorem SInt.new_eq {W LEN : Nat} (p : Nat) (h1 : 1 ≤ LEN) (h2 : LEN ≤ W) :
    SInt.new W LEN p =
      if p % 2 ^ LEN < 2 ^ (LEN - 1) then p % 2 ^ LEN
      else p % 2 ^ LEN + (2 ^ W - 2 ^ LEN) := by
  have hle : (2 : Nat) ^ LEN ≤ 2 ^ W := Nat.pow_le_pow_right (by norm_num) h2
  have hposL : 0 < (2 : Nat) ^ LEN := Nat.two_pow_pos LEN
  have hposW : 0 < (2 : Nat) ^ W := Nat.two_pow_pos W
  have hposR : 0 < (2 : Nat) ^ (W - LEN) := Nat.two_pow_pos (W - LEN)
  have hpos1 : 0 < (2 : Nat) ^ (LEN - 1) := Nat.two_pow_pos (LEN - 1)
  have hsplit : 2 ^ (LEN - 1) * 2 = 2 ^ LEN := by
    rw [← Nat.pow_succ]
    congr 1
    omega
  have hWsplit : 2 ^ LEN * 2 ^ (W - LEN) = 2 ^ W := by
    rw [← Nat.pow_add]
    congr 1
    omega
  have hW1split : 2 ^ (LEN - 1) * 2 ^ (W - LEN) = 2 ^ (W - 1) := by
    rw [← Nat.pow_add]
    congr 1
    omega
  set m := p % 2 ^ LEN with hm_def
  have hm : m < 2 ^ LEN := Nat.mod_lt _ hposL
  unfold SInt.new
  rw [mask_mod h2, land_mask, ← hm_def, Nat.shiftLeft_eq]
  have hshift_lt : m * 2 ^ (W - LEN) < 2 ^ W := by
    calc m * 2 ^ (W - LEN) < 2 ^ LEN * 2 ^ (W - LEN) :=
          (Nat.mul_lt_mul_right hposR).mpr hm
      _ = 2 ^ W := hWsplit
  rw [Nat.mod_eq_of_lt hshift_lt]
  unfold toInt
  have hWsplitZ : (2 : Int) ^ LEN * (2 : Int) ^ (W - LEN) = (2 : Int) ^ W := by
    rw [← pow_add]
    congr 1
    omega
  have hmcast : ((m : Int)) < ((2 : Int) ^ LEN) := by exact_mod_cast hm
  have h2l : ((2 : Int) ^ LEN) ≤ ((2 : Int) ^ W) := by exact_mod_cast hle
  by_cases hcase : m < 2 ^ (LEN - 1)
  · have hlt : m * 2 ^ (W - LEN) < 2 ^ (W - 1) := by
      calc m * 2 ^ (W - LEN) < 2 ^ (LEN - 1) * 2 ^ (W - LEN) :=
            (Nat.mul_lt_mul_right hposR).mpr hcase
        _ = 2 ^ (W - 1) := hW1split
  -- low half: the shifted word is non-negative as a signed value
    rw [if_pos hlt, if_pos hcase]
    have hcast : ((m * 2 ^ (W - LEN) : Nat) : Int) = (m : Int) * (2 : Int) ^ (W - LEN) := by
      push_cast
      ring
    rw [hcast, Int.mul_fdiv_cancel _ (by positivity)]
    exact ofInt_natCast (lt_of_lt_of_le hm hle)
  · have hge : 2 ^ (W - 1) ≤ m * 2 ^ (W - LEN) := by
      have h' : 2 ^ (LEN - 1) ≤ m := le_of_not_lt hcase
      calc 2 ^ (W - 1) = 2 ^ (LEN - 1) * 2 ^ (W - LEN) := hW1split.symm
        _ ≤ m * 2 ^ (W - LEN) := Nat.mul_le_mul_right _ h'
    rw [if_neg (by omega), if_neg hcase]
    have hcast : ((m * 2 ^ (W - LEN) : Nat) : Int) - (2 : Int) ^ W =
        ((m : Int) - (2 : Int) ^ LEN) * (2 : Int) ^ (W - LEN) := by
      push_cast
      linear_combination hWsplitZ
    rw [hcast, Int.mul_fdiv_cancel _ (by positivity)]
    unfold ofInt
    have hmod : ((m : Int) - (2 : Int) ^ LEN) % (2 : Int) ^ W =
        (m : Int) - (2 : Int) ^ LEN + (2 : Int) ^ W := by
      have step1 : ((m : Int) - (2 : Int) ^ LEN + (2 : Int) ^ W * 1) % (2 : Int) ^ W =
          ((m : Int) - (2 : Int) ^ LEN) % (2 : Int) ^ W :=
        Int.add_mul_emod_self_left ((m : Int) - (2 : Int) ^ LEN) ((2 : Int) ^ W) 1
      rw [mul_one] at step1
      rw [← step1]
      exact Int.emod_eq_of_lt (by omega) (by omega)
    rw [hmod]
    have h2ln : ((2 ^ LEN : Nat) : Int) = (2 : Int) ^ LEN := by push_cast; ring
    have h2wn : ((2 ^ W : Nat) : Int) = (2 : Int) ^ W := by push_cast; ring
    omega

theorem toInt_eq_of_lt {W p : Nat} (h : p < 2 ^ (W - 1)) : toInt W p = (p : Int) := by
  unfold toInt
  rw [if_pos h]

theorem toInt_eq_of_ge {W p : Nat} (h : ¬p < 2 ^ (W - 1)) :
    toInt W p = (p : Int) - (2 : Int) ^ W := by
  unfold toInt
  rw [if_neg h]

theorem SInt.new_lt_storage {W LEN : Nat} (p : Nat) (h1 : 1 ≤ LEN) (h2 : LEN ≤ W) :
    SInt.new W LEN p < 2 ^ W := by
  have hle : (2 : Nat) ^ LEN ≤ 2 ^ W := Nat.pow_le_pow_right (by norm_num) h2
  have hm : p % 2 ^ LEN < 2 ^ LEN := Nat.mod_lt _ (Nat.two_pow_pos LEN)
  have hm1 : 0 < (2 : Nat) ^ (LEN - 1) := Nat.two_pow_pos (LEN - 1)
  rw [SInt.new_eq p h1 h2]
  split <;> omega

theorem SInt.new_mod {W LEN : Nat} (p : Nat) (h1 : 1 ≤ LEN) (h2 : LEN ≤ W) :
    SInt.new W LEN p % 2 ^ LEN = p % 2 ^ LEN := by
  have hle : (2 : Nat) ^ LEN ≤ 2 ^ W := Nat.pow_le_pow_right (by norm_num) h2
  have hm : p % 2 ^ LEN < 2 ^ LEN := Nat.mod_lt _ (Nat.two_pow_pos LEN)
  have hWsplit : 2 ^ LEN * 2 ^ (W - LEN) = 2 ^ W := by
    rw [← Nat.pow_add]
    congr 1
    omega
  rw [SInt.new_eq p h1 h2]
  split
  · exact Nat.mod_eq_of_lt hm
  · have hrw : p % 2 ^ LEN + (2 ^ W - 2 ^ LEN) =
        p % 2 ^ LEN + 2 ^ LEN * (2 ^ (W - LEN) - 1) := by
      have : 2 ^ LEN * (2 ^ (W - LEN) - 1) = 2 ^ W - 2 ^ LEN := by
        rw [Nat.mul_sub_one, hWsplit]
      omega
    rw [hrw, Nat.add_mul_mod_self_left]
    exact Nat.mod_eq_of_lt hm

theorem SInt.new_congr {W LEN : Nat} {p q : Nat} (h1 : 1 ≤ LEN) (h2 : LEN ≤ W)
    (h : p % 2 ^ LEN = q % 2 ^ LEN) : SInt.new W LEN p = SInt.new W LEN q := by
  rw [SInt.new_eq p h1 h2, SInt.new_eq q h1 h2, h]

theorem SInt.new_idem {W LEN : Nat} (p : Nat) (h1 : 1 ≤ LEN) (h2 : LEN ≤ W) :
    SInt.new W LEN (SInt.new W LEN p) = SInt.new W LEN p :=
  SInt.new_congr h1 h2 (SInt.new_mod p h1 h2)

/-- The arithmetic value stored by `SInt::new`: it lies in
`[-2^(LEN-1), 2^(LEN-1))` and is congruent to the input modulo `2^LEN`. -/
theorem SInt.value_new {W LEN : Nat} (p : Nat) (h1 : 1 ≤ LEN) (h2 : LEN ≤ W) :
    -((2 : Int) ^ (LEN - 1)) ≤ SInt.value W (SInt.new W LEN p) ∧
      SInt.value W (SInt.new W LEN p) < (2 : Int) ^ (LEN - 1) ∧
      ((2 : Int) ^ LEN) ∣ (SInt.value W (SInt.new W LEN p) - toInt W p) := by
  have hle : (2 : Nat) ^ LEN ≤ 2 ^ W := Nat.pow_le_pow_right (by norm_num) h2
  have hmono1 : (2 : Nat) ^ (LEN - 1) ≤ 2 ^ (W - 1) :=
    Nat.pow_le_pow_right (by norm_num) (by omega)
  have hsplit : 2 ^ (LEN - 1) * 2 = 2 ^ LEN := by
    rw [← Nat.pow_succ]
    congr 1
    omega
  have hWhalf : 2 ^ (W - 1) * 2 = 2 ^ W := by
    rw [← Nat.pow_succ]
    congr 1
    omega
  have hWsplit : 2 ^ LEN * 2 ^ (W - LEN) = 2 ^ W := by
    rw [← Nat.pow_add]
    congr 1
    omega
  have hm : p % 2 ^ LEN < 2 ^ LEN := Nat.mod_lt _ (Nat.two_pow_pos LEN)
  have hdm : 2 ^ LEN * (p / 2 ^ LEN) + p % 2 ^ LEN = p := Nat.div_add_mod p (2 ^ LEN)
  have hdmZ : ((2 : Int) ^ LEN) * ((p / 2 ^ LEN : Nat) : Int) + ((p % 2 ^ LEN : Nat) : Int)
      = (p : Int) := by exact_mod_cast hdm
  have hsplitZ : (2 : Int) ^ (LEN - 1) * 2 = (2 : Int) ^ LEN := by exact_mod_cast hsplit
  have hWsplitZ : (2 : Int) ^ LEN * (2 : Int) ^ (W - LEN) = (2 : Int) ^ W := by
    exact_mod_cast hWsplit
  have hmZ : ((p % 2 ^ LEN : Nat) : Int) < (2 : Int) ^ LEN := by exact_mod_cast hm
  have hmZ0 : (0 : Int) ≤ ((p % 2 ^ LEN : Nat) : Int) := Int.natCast_nonneg _
  unfold SInt.value
  rw [SInt.new_eq p h1 h2]
  -- the two possible values of `toInt W p`
  have htp : toInt W p = (p : Int) ∨ toInt W p = (p : Int) - (2 : Int) ^ W := by
    by_cases hc : p < 2 ^ (W - 1)
    · exact Or.inl (toInt_eq_of_lt hc)
    · exact Or.inr (toInt_eq_of_ge hc)
  by_cases hcase : p % 2 ^ LEN < 2 ^ (LEN - 1)
  · rw [if_pos hcase]
    have hlt1 : p % 2 ^ LEN < 2 ^ (W - 1) := lt_of_lt_of_le hcase hmono1
    rw [toInt_eq_of_lt hlt1]
    have hcZ : ((p % 2 ^ LEN : Nat) : Int) < (2 : Int) ^ (LEN - 1) := by exact_mod_cast hcase
    refine ⟨by omega, hcZ, ?_⟩
    rcases htp with h | h <;> rw [h]
    · exact ⟨-((p / 2 ^ LEN : Nat) : Int), by linear_combination hdmZ⟩
    · exact ⟨-((p / 2 ^ LEN : Nat) : Int) + (2 : Int) ^ (W - LEN), by
        linear_combination hdmZ - hWsplitZ⟩
  · rw [if_neg hcase]
    have hcge : 2 ^ (LEN - 1) ≤ p % 2 ^ LEN := le_of_not_lt hcase
    have hge : 2 ^ (W - 1) ≤ p % 2 ^ LEN + (2 ^ W - 2 ^ LEN) := by omega
    rw [toInt_eq_of_ge (by omega)]
    have hcast : ((p % 2 ^ LEN + (2 ^ W - 2 ^ LEN) : Nat) : Int) - (2 : Int) ^ W =
        ((p % 2 ^ LEN : Nat) : Int) - (2 : Int) ^ LEN := by
      have h2ln : ((2 ^ LEN : Nat) : Int) = (2 : Int) ^ LEN := by push_cast; ring
      have h2wn : ((2 ^ W : Nat) : Int) = (2 : Int) ^ W := by push_cast; ring
      omega
    rw [hcast]
    have hcgeZ : (2 : Int) ^ (LEN - 1) ≤ ((p % 2 ^ LEN : Nat) : Int) := by exact_mod_cast hcge
    refine ⟨by omega, by omega, ?_⟩
    rcases htp with h | h <;> rw [h]
    · exact ⟨-((p / 2 ^ LEN : Nat) : Int) - 1, by linear_combination hdmZ⟩
    · exact ⟨-((p / 2 ^ LEN : Nat) : Int) - 1 + (2 : Int) ^ (W - LEN), by
        linear_combination hdmZ - hWsplitZ⟩

/-- Two integers of the same residue class modulo `2 * H` that both lie in
`[-H, H)` are equal. -/
theorem int_congr_unique {H y z c : Int} (hH : 0 < H) (hy1 : -H ≤ y) (hy2 : y < H)
    (hz1 : -H ≤ z) (hz2 : z < H) (hc : y - z = 2 * H * c) : y = z := by
  rcases lt_trichotomy c 0 with h | h | h
  · have h1 : c ≤ -1 := by omega
    nlinarith
  · rw [h, mul_zero] at hc
    omega
  · have h1 : 1 ≤ c := by omega
    nlinarith

/-- C1: for every bit width `LEN` with `1 ≤ LEN ≤ W` and every native
signed input of the storage class (a `W`-bit pattern `p`),
`SInt::<T, LEN>::new(x).value()` is the unique integer in
`[-2^(LEN-1), 2^(LEN-1) - 1]` congruent to `x` modulo `2^LEN`. -/
theorem c1_sint_new_value_roundtrip (W LEN p : Nat) (h1 : 1 ≤ LEN) (h2 : LEN ≤ W)
    (hp : p < 2 ^ W) :
    (-((2 : Int) ^ (LEN - 1)) ≤ SInt.value W (SInt.new W LEN p) ∧
      SInt.value W (SInt.new W LEN p) < (2 : Int) ^ (LEN - 1) ∧
      ((2 : Int) ^ LEN) ∣ (SInt.value W (SInt.new W LEN p) - toInt W p)) ∧
    ∀ y : Int, -((2 : Int) ^ (LEN - 1)) ≤ y → y < (2 : Int) ^ (LEN - 1) →
      ((2 : Int) ^ LEN) ∣ (y - toInt W p) → y = SInt.value W (SInt.new W LEN p) := by
  obtain ⟨hr1, hr2, hr3⟩ := SInt.value_new p h1 h2
  refine ⟨⟨hr1, hr2, hr3⟩, ?_⟩
  intro y hy1 hy2 hy3
  have hsplit : (2 : Int) ^ (LEN - 1) * 2 = (2 : Int) ^ LEN := by
    rw [← pow_succ]
    congr 1
    omega
  have hdvd : ((2 : Int) ^ LEN) ∣ (y - SInt.value W (SInt.new W LEN p)) := by
    have := dvd_sub hy3 hr3
    simpa using this
  obtain ⟨c, hc⟩ := hdvd
  exact int_congr_unique (by positivity) hy1 hy2 hr1 hr2
    (by rw [hc]; linear_combination c * hsplit.symm)

theorem c1_witness :
    SInt.value 8 (SInt.new 8 5 255) = -1 ∧
      (-((2 : Int) ^ (5 - 1)) ≤ SInt.value 8 (SInt.new 8 5 255) ∧
        SInt.value 8 (SInt.new 8 5 255) < (2 : Int) ^ (5 - 1) ∧
        ((2 : Int) ^ 5) ∣ (SInt.value 8 (SInt.new 8 5 255) - toInt 8 255)) :=
  ⟨by decide, (c1_sint_new_value_roundtrip 8 5 255 (by decide) (by decide) (by decide)).1⟩

/-- C2: for every bit width `LEN ≤ W` and every native unsigned input `x`
of the storage class, `UInt::<T, LEN>::new(x).value() = x & ((1 << LEN) - 1)`;
construction is total (never fails) and silently truncates the high bits. -/
theorem c2_uint_new_value_roundtrip (W LEN x : Nat) (h2 : LEN ≤ W) (hx : x < 2 ^ W) :
    UInt.value (UInt.new W LEN x) = x &&& (2 ^ LEN - 1) ∧
      UInt.value (UInt.new W LEN x) = x % 2 ^ LEN := by
  constructor
  · unfold UInt.value UInt.new UnsignedInt.new
    rw [mask_mod h2]
  · exact UInt.new_eq_mod h2 x

theorem c2_witness :
    UInt.value (UInt.new 8 4 171) = 171 &&& (2 ^ 4 - 1) ∧
      UInt.value (UInt.new 8 4 171) = 171 % 2 ^ 4 :=
  c2_uint_new_value_roundtrip 8 4 171 (by decide) (by decide)

theorem ofInt_toInt {W p : Nat} (hp : p < 2 ^ W) : ofInt W (toInt W p) = p := by
  by_cases h : p < 2 ^ (W - 1)
  · rw [toInt_eq_of_lt h]
    exact ofInt_natCast hp
  · rw [toInt_eq_of_ge h]
    unfold ofInt
    have step1 : ((p : Int) + (2 : Int) ^ W * (-1)) % (2 : Int) ^ W = (p : Int) % (2 : Int) ^ W :=
      Int.add_mul_emod_self_left (p : Int) ((2 : Int) ^ W) (-1)
    have hrw : (p : Int) - (2 : Int) ^ W = (p : Int) + (2 : Int) ^ W * (-1) := by ring
    rw [hrw, step1, Int.emod_eq_of_lt (by positivity) (by exact_mod_cast hp)]
    exact Int.toNat_natCast p

theorem map_new_some {W LEN : Nat} {o : Option Nat} {r : Nat}
    (h : o.map (UInt.new W LEN) = some r) : ∃ a, r = UInt.new W LEN a := by
  rw [Option.map_eq_some'] at h
  obtain ⟨a, -, ha⟩ := h
  exact ⟨a, ha.symm⟩

theorem map_snew_some {W LEN : Nat} {o : Option Nat} {r : Nat}
    (h : o.map (SInt.new W LEN) = some r) : ∃ a, r = SInt.new W LEN a := by
  rw [Option.map_eq_some'] at h
  obtain ⟨a, -, ha⟩ := h
  exact ⟨a, ha.symm⟩

/-- C4: every `UInt` value produced by a public operation has its upper
`W - LEN` storage bits equal to zero (in fact all bits from position `LEN`
up are zero). -/
theorem c4_uint_upper_bits_zero (W LEN : Nat) (h2 : LEN ≤ W) :
    (∀ x i, LEN ≤ i → (UInt.new W LEN x).testBit i = false) ∧
      (∀ v r, UInt.try_from W LEN v = some r → ∀ i, LEN ≤ i → r.testBit i = false) ∧
      (∀ x idx b i, LEN ≤ i → (UInt.with_bit W LEN x idx b).testBit i = false) ∧
      (∀ x idx b r, UInt.try_with_bit W LEN x idx b = some r →
        ∀ i, LEN ≤ i → r.testBit i = false) ∧
      (∀ x s e i, LEN ≤ i → (UInt.bits W LEN x s e).testBit i = false) ∧
      (∀ x s e r, UInt.try_bits W LEN x s e = some r → ∀ i, LEN ≤ i → r.testBit i = false) ∧
      (∀ x s e v i, LEN ≤ i → (UInt.with_bits W LEN x s e v).testBit i = false) ∧
      (∀ x s e v r, UInt.try_with_bits W LEN x s e v = some r →
        ∀ i, LEN ≤ i → r.testBit i = false) := by
  have key : ∀ x i, LEN ≤ i → (UInt.new W LEN x).testBit i = false := fun x i hi =>
    testBit_false_of_lt (UInt.new_lt h2 x) hi
  refine ⟨key, ?_, fun x idx b i hi => key _ i hi, ?_, fun x s e i hi => key _ i hi, ?_,
    fun x s e v i hi => key _ i hi, ?_⟩
  · intro v r hr i hi
    unfold UInt.try_from at hr
    split at hr
    · injection hr with h
      rw [← h]
      exact key _ i hi
    · exact Option.noConfusion hr
  · intro x idx b r hr i hi
    obtain ⟨a, ha⟩ := map_new_some hr
    rw [ha]
    exact key a i hi
  · intro x s e r hr i hi
    obtain ⟨a, ha⟩ := map_new_some hr
    rw [ha]
    exact key a i hi
  · intro x s e v r hr i hi
    obtain ⟨a, ha⟩ := map_new_some hr
    rw [ha]
    exact key a i hi

theorem c4_witness : Nat.testBit (UInt.new 8 4 255) 5 = false :=
  (c4_uint_upper_bits_zero 8 4 (by decide)).1 255 5 (by decide)

/-- The `SInt` storage invariant: all stored bits from position `LEN` up to
`W - 1` replicate the sign bit at position `LEN - 1`, and the stored word
is the sign extension (`ofInt`) of an integer in `[-2^(LEN-1), 2^(LEN-1))`. -/
def SIntSignExtended (W LEN r : Nat) : Prop :=
  (∀ i, LEN ≤ i → i < W → r.testBit i = r.testBit (LEN - 1)) ∧
  ∃ y : Int, -((2 : Int) ^ (LEN - 1)) ≤ y ∧ y < (2 : Int) ^ (LEN - 1) ∧
    r = ofInt W y ∧ toInt W r = y

theorem SInt.new_sign_extended {W LEN : Nat} (x : Nat) (h1 : 1 ≤ LEN) (h2 : LEN ≤ W) :
    SIntSignExtended W LEN (SInt.new W LEN x) := by
  have hle : (2 : Nat) ^ LEN ≤ 2 ^ W := Nat.pow_le_pow_right (by norm_num) h2
  have hsplit : 2 ^ (LEN - 1) * 2 = 2 ^ LEN := by
    rw [← Nat.pow_succ]
    congr 1
    omega
  have hWsplit : 2 ^ LEN * 2 ^ (W - LEN) = 2 ^ W := by
    rw [← Nat.pow_add]
    congr 1
    omega
  have hm : x % 2 ^ LEN < 2 ^ LEN := Nat.mod_lt _ (Nat.two_pow_pos LEN)
  constructor
  · intro i hi hiW
    rw [SInt.new_eq x h1 h2]
    by_cases hcase : x % 2 ^ LEN < 2 ^ (LEN - 1)
    · rw [if_pos hcase]
      rw [testBit_false_of_lt hcase (by omega), testBit_false_of_lt hcase (le_refl _)]
    · rw [if_neg hcase]
      have hcge : 2 ^ (LEN - 1) ≤ x % 2 ^ LEN := le_of_not_lt hcase
      have hrw : x % 2 ^ LEN + (2 ^ W - 2 ^ LEN) =
          2 ^ LEN * (2 ^ (W - LEN) - 1) + x % 2 ^ LEN := by
        have : 2 ^ LEN * (2 ^ (W - LEN) - 1) = 2 ^ W - 2 ^ LEN := by
          rw [Nat.mul_sub_one, hWsplit]
        omega
      rw [hrw, Nat.testBit_mul_pow_two_add _ hm, Nat.testBit_mul_pow_two_add _ hm]
      rw [if_neg (by omega), if_pos (by omega)]
      rw [Nat.testBit_two_pow_sub_one]
      have hsign : (x % 2 ^ LEN).testBit (LEN - 1) = true := by
        rw [Nat.testBit_to_div_mod]
        have hdiv : x % 2 ^ LEN / 2 ^ (LEN - 1) = 1 :=
          Nat.div_eq_of_lt_le (by omega) (by omega)
        rw [hdiv]
        decide
      rw [hsign]
      simp only [decide_eq_true_eq]
      omega
  · refine ⟨toInt W (SInt.new W LEN x), ?_, ?_, ?_, rfl⟩
    · exact (SInt.value_new x h1 h2).1
    · exact (SInt.value_new x h1 h2).2.1
    · exact (ofInt_toInt (SInt.new_lt_storage x h1 h2)).symm

/-- C5: every `SInt` value produced by a public operation satisfies the
sign-extension storage invariant. -/
theorem c5_sint_invariant (W LEN : Nat) (h1 : 1 ≤ LEN) (h2 : LEN ≤ W) :
    (∀ x, SIntSignExtended W LEN (SInt.new W LEN x)) ∧
      (∀ x idx b, SIntSignExtended W LEN (SInt.with_bit W LEN x idx b)) ∧
      (∀ x idx b r, SInt.try_with_bit W LEN x idx b = some r → SIntSignExtended W LEN r) ∧
      (∀ x s e, SIntSignExtended W LEN (SInt.bits W LEN x s e)) ∧
      (∀ x s e r, SInt.try_bits W LEN x s e = some r → SIntSignExtended W LEN r) ∧
      (∀ x s e v, SIntSignExtended W LEN (SInt.with_bits W LEN x s e v)) ∧
      (∀ x s e v r, SInt.try_with_bits W LEN x s e v = some r → SIntSignExtended W LEN r) := by
  have key : ∀ x, SIntSignExtended W LEN (SInt.new W LEN x) := fun x =>
    SInt.new_sign_extended x h1 h2
  refine ⟨key, fun x idx b => key _, ?_, fun x s e => key _, ?_, fun x s e v => key _, ?_⟩
  · intro x idx b r hr
    obtain ⟨a, ha⟩ := map_snew_some hr
    rw [ha]
    exact key a
  · intro x s e r hr
    obtain ⟨a, ha⟩ := map_snew_some hr
    rw [ha]
    exact key a
  · intro x s e v r hr
    obtain ⟨a, ha⟩ := map_snew_some hr
    rw [ha]
    exact key a

theorem c5_witness : SIntSignExtended 8 5 (SInt.new 8 5 255) :=
  (c5_sint_invariant 8 5 (by decide) (by decide)).1 255

/-- C8: the fallible narrowing construction `TryFrom<u64>` of `UInt` fails
(with `ValueDoesNotFit`, modelled as `none`) iff the input exceeds
`2^LEN - 1`, and on success the stored value is exactly the input. -/
theorem c8_uint_try_from (W LEN v : Nat) (h2 : LEN ≤ W) :
    (UInt.try_from W LEN v = none ↔ 2 ^ LEN - 1 < v) ∧
      ∀ r, UInt.try_from W LEN v = some r → UInt.value r = v := by
  have hle : (2 : Nat) ^ LEN ≤ 2 ^ W := Nat.pow_le_pow_right (by norm_num) h2
  have hpos : 0 < (2 : Nat) ^ LEN := Nat.two_pow_pos LEN
  unfold UInt.try_from unsigned_mask
  by_cases hv : v ≤ 2 ^ LEN - 1
  · rw [if_pos hv]
    constructor
    · constructor
      · intro h
        exact Option.noConfusion h
      · intro h
        exact absurd h (by omega)
    · intro r hr
      injection hr with h
      rw [← h]
      unfold UnsignedInt.new
      rw [Nat.mod_eq_of_lt (by omega), UInt.new_eq_mod h2, Nat.mod_eq_of_lt (by omega)]
      rfl
  · rw [if_neg hv]
    refine ⟨⟨fun _ => by omega, fun _ => rfl⟩, ?_⟩
    intro r hr
    exact Option.noConfusion hr

theorem c8_witness : UInt.try_from 8 4 16 = none ∧ UInt.try_from 8 4 15 = some 15 :=
  ⟨(c8_uint_try_from 8 4 16 (by decide)).1.mpr (by decide), by decide⟩

/-! ### Bit-range lemmas -/

theorem testBit_bits (q a b i : Nat) :
    (BitUtils.bits q a b).testBit i = (decide (i < b - a) && q.testBit (a + i)) := by
  unfold BitUtils.bits unsigned_mask
  simp [Nat.testBit_land, Nat.testBit_shiftRight, Nat.testBit_two_pow_sub_one, Bool.and_comm]

theorem bits_lt (q a b : Nat) : BitUtils.bits q a b < 2 ^ (b - a) := by
  unfold BitUtils.bits unsigned_mask
  have h := Nat.and_le_right (n := q >>> a) (m := 2 ^ (b - a) - 1)
  have hpos := Nat.two_pow_pos (b - a)
  omega

theorem testBit_with_bits {W : Nat} (p s e v i : Nat) (hs : s ≤ e) (he : e ≤ W) :
    (BitUtils.with_bits W p s e v).testBit i =
      if s ≤ i ∧ i < e then v.testBit (i - s) else (p.testBit i && decide (i < W)) := by
  simp only [BitUtils.with_bits, unsigned_mask, Nat.testBit_lor, Nat.testBit_land,
    Nat.testBit_xor, Nat.testBit_shiftLeft, Nat.testBit_two_pow_sub_one]
  by_cases h1 : s ≤ i
  · by_cases h2 : i < e
    · rw [if_pos ⟨h1, h2⟩]
      have d1 : decide (i ≥ s) = true := by simp [ge_iff_le, h1]
      have d2 : decide (i - s < e - s) = true := by simp only [decide_eq_true_eq]; omega
      have d3 : decide (i < W) = true := by simp only [decide_eq_true_eq]; omega
      rw [d1, d2, d3]
      simp
    · rw [if_neg (by omega)]
      have d1 : decide (i ≥ s) = true := by simp [ge_iff_le, h1]
      have d2 : decide (i - s < e - s) = false := by
        simp only [decide_eq_false_iff_not]
        omega
      rw [d1, d2]
      simp
  · rw [if_neg (by omega)]
    have d1 : decide (i ≥ s) = false := by
      simp only [ge_iff_le, decide_eq_false_iff_not]
      omega
    rw [d1]
    simp

theorem with_bits_bits_native {W : Nat} (q s e : Nat) (hq : q < 2 ^ W) (hs : s ≤ e)
    (he : e ≤ W) : BitUtils.with_bits W q s e (BitUtils.bits q s e) = q := by
  apply Nat.eq_of_testBit_eq
  intro i
  rw [testBit_with_bits q s e _ i hs he]
  by_cases h : s ≤ i ∧ i < e
  · rw [if_pos h, testBit_bits]
    have hadd : s + (i - s) = i := by omega
    have hlt : i - s < e - s := by omega
    rw [hadd]
    simp [hlt]
  · rw [if_neg h]
    by_cases h3 : i < W
    · simp [h3]
    · rw [testBit_false_of_lt hq (by omega)]
      simp [h3]

theorem with_bits_congr {W : Nat} {p s e v v' : Nat}
    (h : v &&& unsigned_mask (e - s) = v' &&& unsigned_mask (e - s)) :
    BitUtils.with_bits W p s e v = BitUtils.with_bits W p s e v' := by
  unfold BitUtils.with_bits
  rw [h]

theorem UInt.bits_eq {W LEN : Nat} (p s e : Nat) (hLW : LEN ≤ W) (he : e ≤ LEN) :
    UInt.bits W LEN p s e = BitUtils.bits p s e := by
  unfold UInt.bits
  rw [UInt.new_eq_mod hLW]
  exact Nat.mod_eq_of_lt (lt_of_lt_of_le (bits_lt p s e)
    (Nat.pow_le_pow_right (by norm_num) (by omega)))

/-- C3 (amended): `bits(start, end)` returns the sub-range right-shifted
to bit 0.  For the primitive on native words and for `UInt` the result is
zero-extended; for `SInt` the low `e - s` result bits are the extracted
slice, and the result is zero-extended whenever the slice is strictly
narrower than `LEN` — a full-width slice is re-sign-extended instead. -/
theorem c3_bits_subrange (W LEN p s e : Nat) (h1 : 1 ≤ LEN) (hLW : LEN ≤ W) (hs : s ≤ e)
    (he : e ≤ LEN) :
    (∀ q a b i, (BitUtils.bits q a b).testBit i = (decide (i < b - a) && q.testBit (a + i))) ∧
      (∀ i, (UInt.bits W LEN p s e).testBit i = (decide (i < e - s) && p.testBit (s + i))) ∧
      (∀ i, i < e - s → (SInt.bits W LEN p s e).testBit i = p.testBit (s + i)) ∧
      (e - s < LEN → ∀ i, e - s ≤ i → (SInt.bits W LEN p s e).testBit i = false) := by
  have hslice_lt : BitUtils.bits p s e < 2 ^ (e - s) := bits_lt p s e
  have hes_le : e - s ≤ LEN := by omega
  have hslice_len : BitUtils.bits p s e < 2 ^ LEN :=
    lt_of_lt_of_le hslice_lt (Nat.pow_le_pow_right (by norm_num) hes_le)
  have hslice_mod : BitUtils.bits p s e % 2 ^ LEN = BitUtils.bits p s e :=
    Nat.mod_eq_of_lt hslice_len
  refine ⟨testBit_bits, ?_, ?_, ?_⟩
  · intro i
    rw [UInt.bits_eq p s e hLW he, testBit_bits]
  · intro i hi
    have hiLEN : i < LEN := by omega
    unfold SInt.bits
    have hmod := SInt.new_mod (BitUtils.bits p s e) h1 hLW
    calc (SInt.new W LEN (BitUtils.bits p s e)).testBit i
        = (SInt.new W LEN (BitUtils.bits p s e) % 2 ^ LEN).testBit i := by
          rw [Nat.testBit_mod_two_pow]
          simp [hiLEN]
      _ = (BitUtils.bits p s e).testBit i := by rw [hmod, hslice_mod]
      _ = p.testBit (s + i) := by
          rw [testBit_bits]
          simp [hi]
  · intro hnarrow i hi
    have hsliceA : BitUtils.bits p s e < 2 ^ (LEN - 1) :=
      lt_of_lt_of_le hslice_lt (Nat.pow_le_pow_right (by norm_num) (by omega))
    unfold SInt.bits
    rw [SInt.new_eq (BitUtils.bits p s e) h1 hLW, if_pos (by rw [hslice_mod]; exact hsliceA),
      hslice_mod]
    exact testBit_false_of_lt hslice_lt hi

theorem c3_counterexample :
    SInt.new 8 5 (ofInt 8 (-1)) = 255 ∧ SInt.bits 8 5 255 0 5 = 255 ∧
      (SInt.bits 8 5 255 0 5).testBit 5 = true := by
  decide

theorem c3_witness :
    (UInt.bits 8 5 22 1 4).testBit 0 = (decide (0 < 4 - 1) && Nat.testBit 22 (1 + 0)) ∧
      (SInt.bits 8 5 246 1 4).testBit 5 = false :=
  ⟨(c3_bits_subrange 8 5 22 1 4 (by decide) (by decide) (by decide) (by decide)).2.1 0,
    (c3_bits_subrange 8 5 246 1 4 (by decide) (by decide) (by decide) (by decide)).2.2.2
      (by decide) 5 (by decide)⟩

/-- C9: writing back the extracted range is the identity, for the native
primitive, for `UInt` and for `SInt` (the latter on any value satisfying
the storage invariant, i.e. any reachable value). -/
theorem c9_with_bits_bits_identity (W LEN p s e : Nat) (h1 : 1 ≤ LEN) (hLW : LEN ≤ W) :
    (∀ q, q < 2 ^ W → s ≤ e → e ≤ W → BitUtils.with_bits W q s e (BitUtils.bits q s e) = q) ∧
      (p < 2 ^ LEN → s ≤ e → e ≤ LEN →
        UInt.with_bits W LEN p s e (UInt.bits W LEN p s e) = p) ∧
      (SInt.new W LEN p = p → s ≤ e → e ≤ LEN →
        SInt.with_bits W LEN p s e (SInt.bits W LEN p s e) = p) := by
  refine ⟨fun q hq hs he => with_bits_bits_native q s e hq hs he, ?_, ?_⟩
  · intro hp hs he
    have hpW : p < 2 ^ W :=
      lt_of_lt_of_le hp (Nat.pow_le_pow_right (by norm_num) hLW)
    unfold UInt.with_bits UInt.value
    rw [UInt.bits_eq p s e hLW he,
      with_bits_bits_native p s e hpW hs (le_trans he hLW), UInt.new_eq_mod hLW]
    exact Nat.mod_eq_of_lt hp
  · intro hinv hs he
    have hpW : p < 2 ^ W := by
      rw [← hinv]
      exact SInt.new_lt_storage p h1 hLW
    have hdvd : (2 : Nat) ^ (e - s) ∣ 2 ^ LEN := Nat.pow_dvd_pow 2 (by omega)
    have hslice_lt : BitUtils.bits p s e < 2 ^ (e - s) := bits_lt p s e
    have hcongr : SInt.new W LEN (BitUtils.bits p s e) &&& unsigned_mask (e - s) =
        BitUtils.bits p s e &&& unsigned_mask (e - s) := by
      unfold unsigned_mask
      rw [land_mask, land_mask, ← Nat.mod_mod_of_dvd _ hdvd,
        SInt.new_mod (BitUtils.bits p s e) h1 hLW, Nat.mod_mod_of_dvd _ hdvd]
    unfold SInt.with_bits SInt.bits
    rw [with_bits_congr hcongr, with_bits_bits_native p s e hpW hs (le_trans he hLW), hinv]

theorem c9_witness :
    UInt.with_bits 8 5 22 1 4 (UInt.bits 8 5 22 1 4) = 22 ∧
      SInt.with_bits 8 5 246 1 4 (SInt.bits 8 5 246 1 4) = 246 :=
  ⟨(c9_with_bits_bits_identity 8 5 22 1 4 (by decide) (by decide)).2.1
      (by decide) (by decide) (by decide),
    (c9_with_bits_bits_identity 8 5 246 1 4 (by decide) (by decide)).2.2
      (by decide) (by decide) (by decide)⟩

/-! ### Enum conversion lemmas -/

theorem storageBits_ge {n : Nat} (h : n ≤ 64) : n ≤ storageBits n := by
  unfold storageBits
  split_ifs <;> omega

theorem match_discs_none_iff (l : List Nat) (v : Nat) :
    match_discs l v = none ↔ ∀ d ∈ l, d ≠ v := by
  induction l with
  | nil => simp [match_discs]
  | cons d rest ih =>
    unfold match_discs
    by_cases h : v = d
    · simp [h]
    · simp only [if_neg h, Option.map_eq_none', ih, List.mem_cons]
      constructor
      · intro hall x hx
        rcases hx with hx | hx
        · omega
        · exact hall x hx
      · intro hall x hx
        exact hall x (Or.inr hx)

theorem match_discs_some {l : List Nat} {v i : Nat} (h : match_discs l v = some i) :
    l.getD i 0 = v := by
  induction l generalizing i with
  | nil => exact Option.noConfusion h
  | cons d rest ih =>
    unfold match_discs at h
    by_cases hv : v = d
    · rw [if_pos hv] at h
      injection h with h'
      rw [← h']
      exact hv.symm
    · rw [if_neg hv, Option.map_eq_some'] at h
      obtain ⟨j, hj, hji⟩ := h
      rw [← hji]
      simpa using ih hj

theorem match_discs_nodup (l : List Nat) (hnd : l.Nodup) :
    ∀ i, i < l.length → match_discs l (l.getD i 0) = some i := by
  induction l with
  | nil => intro i hi; simp at hi
  | cons d rest ih =>
    intro i hi
    rw [List.nodup_cons] at hnd
    match i with
    | 0 =>
      unfold match_discs
      rw [List.getD_cons_zero, if_pos rfl]
    | j + 1 =>
      have hj : j < rest.length := by simpa using hi
      rw [List.getD_cons_succ]
      unfold match_discs
      have hne : ¬rest.getD j 0 = d := by
        intro hcontra
        apply hnd.1
        rw [← hcontra]
        rw [List.getD_eq_getElem rest 0 hj]
        exact List.getElem_mem hj
      rw [if_neg hne, ih hnd.2 j hj]
      rfl

/-- C7: on a generated enum, `try_from_bits` is absent exactly on stored
raw patterns equal to no variant discriminant; in particular, for the
3-variant enum in 2 bits, patterns 0, 1, 2 map to their variants and the
unused pattern 3 is absent. -/
theorem c7_enum_try_from_bits_absence :
    (∀ (spec : BitEnum) (v : Nat),
        BitEnum.try_from_bits spec v = none ↔ ∀ d ∈ spec.discs, d ≠ UInt.value v) ∧
      BitEnum.try_from_bits ⟨2, [0, 1, 2]⟩ 0 = some 0 ∧
      BitEnum.try_from_bits ⟨2, [0, 1, 2]⟩ 1 = some 1 ∧
      BitEnum.try_from_bits ⟨2, [0, 1, 2]⟩ 2 = some 2 ∧
      BitEnum.try_from_bits ⟨2, [0, 1, 2]⟩ 3 = none :=
  ⟨fun spec v => match_discs_none_iff spec.discs (UInt.value v),
    by decide, by decide, by decide, by decide⟩

theorem c7_witness : BitEnum.try_from_bits ⟨2, [0, 1, 2]⟩ 3 = none :=
  (c7_enum_try_from_bits_absence.1 ⟨2, [0, 1, 2]⟩ 3).mpr (by decide)

/-- C6 (amended): the conversion round-trip `from_bits (into_bits x) = x`
holds for width-bounded unsigned integers, for width-bounded signed
integers on values satisfying the storage invariant, for booleans, for
generated composite records, and for generated enums whose variant count
is `2^BITS` *provided every variant discriminant fits in `BITS` bits*;
the total conversion is generated exactly when the count is `2^BITS`. -/
theorem c6_from_bits_roundtrip (W LEN : Nat) (h1 : 1 ≤ LEN) (h2 : LEN ≤ W) :
    (∀ v, UInt.from_bits (UInt.into_bits v) = v) ∧
      (∀ p, SInt.new W LEN p = p → SInt.from_bits W LEN (SInt.into_bits W LEN p) = p) ∧
      (∀ b, bool_from_bits (bool_into_bits b) = b) ∧
      (∀ v, BitStruct.from_bits (BitStruct.to_bits v) = v) ∧
      (∀ spec : BitEnum,
        (BitEnum.generates_from_bits spec = true ↔ 2 ^ spec.bitlen = spec.discs.length) ∧
        (spec.bitlen ≤ 64 → spec.discs.Nodup → BitEnum.generates_from_bits spec = true →
          (∀ d ∈ spec.discs, d < 2 ^ spec.bitlen) →
          ∀ i, i < spec.discs.length →
            BitEnum.from_bits spec (BitEnum.into_bits spec i) = some i)) := by
  refine ⟨fun v => rfl, ?_, fun b => by cases b <;> rfl, fun v => rfl, ?_⟩
  · intro p hinv
    unfold SInt.from_bits SInt.into_bits
    rw [UInt.new_eq_mod h2, ← hinv]
    exact SInt.new_congr h1 h2
      (by rw [Nat.mod_mod_of_dvd _ (dvd_refl (2 ^ LEN)), SInt.new_mod p h1 h2])
  · intro spec
    refine ⟨by simp [BitEnum.generates_from_bits], ?_⟩
    intro hlen hnd _hgen hfit i hi
    have hWst : spec.bitlen ≤ storageBits spec.bitlen := storageBits_ge hlen
    have hd : spec.discs.getD i 0 < 2 ^ spec.bitlen := by
      apply hfit
      rw [List.getD_eq_getElem spec.discs 0 hi]
      exact List.getElem_mem hi
    have hdW : spec.discs.getD i 0 < 2 ^ storageBits spec.bitlen :=
      lt_of_lt_of_le hd (Nat.pow_le_pow_right (by norm_num) hWst)
    have hinto : BitEnum.into_bits spec i = spec.discs.getD i 0 := by
      unfold BitEnum.into_bits UnsignedInt.new
      rw [Nat.mod_eq_of_lt hdW, UInt.new_eq_mod hWst, Nat.mod_eq_of_lt hd]
    unfold BitEnum.from_bits BitEnum.try_from_bits UInt.value
    rw [hinto]
    exact match_discs_nodup spec.discs hnd i hi

theorem c6_counterexample :
    BitEnum.generates_from_bits ⟨2, [0, 1, 2, 5]⟩ = true ∧
      BitEnum.from_bits ⟨2, [0, 1, 2, 5]⟩ (BitEnum.into_bits ⟨2, [0, 1, 2, 5]⟩ 3) = some 1 ∧
      BitEnum.from_bits ⟨2, [0, 1, 2, 5]⟩ (BitEnum.into_bits ⟨2, [0, 1, 2, 5]⟩ 3) ≠ some 3 := by
  decide

theorem c6_witness :
    UInt.from_bits (UInt.into_bits 7) = 7 ∧
      SInt.from_bits 8 5 (SInt.into_bits 8 5 246) = 246 ∧
      bool_from_bits (bool_into_bits true) = true ∧
      BitEnum.from_bits ⟨2, [0, 1, 2, 3]⟩ (BitEnum.into_bits ⟨2, [0, 1, 2, 3]⟩ 2) = some 2 :=
  ⟨(c6_from_bits_roundtrip 8 5 (by decide) (by decide)).1 7,
    (c6_from_bits_roundtrip 8 5 (by decide) (by decide)).2.1 246 (by decide),
    (c6_from_bits_roundtrip 8 5 (by decide) (by decide)).2.2.1 true,
    ((c6_from_bits_roundtrip 8 5 (by decide) (by decide)).2.2.2.2 ⟨2, [0, 1, 2, 3]⟩).2
      (by decide) (by decide) (by decide) (by decide) 2 (by decide)⟩

/-- C10: generated enum `into_bits` masks the discriminant to the low
`BITS` bits while `try_from_bits` compares against the full unmasked
discriminants; hence a variant whose discriminant does not fit in `BITS`
bits does not round-trip. -/
theorem c10_enum_oversized_discriminant (spec : BitEnum) (i : Nat) (hlen : spec.bitlen ≤ 64)
    (hi : i < spec.discs.length) :
    BitEnum.into_bits spec i = spec.discs.getD i 0 % 2 ^ spec.bitlen ∧
      (2 ^ spec.bitlen ≤ spec.discs.getD i 0 →
        BitEnum.try_from_bits spec (BitEnum.into_bits spec i) ≠ some i) := by
  have hWst : spec.bitlen ≤ storageBits spec.bitlen := storageBits_ge hlen
  have hdvd : (2 : Nat) ^ spec.bitlen ∣ 2 ^ storageBits spec.bitlen :=
    Nat.pow_dvd_pow 2 hWst
  have hinto : BitEnum.into_bits spec i = spec.discs.getD i 0 % 2 ^ spec.bitlen := by
    unfold BitEnum.into_bits UnsignedInt.new
    rw [UInt.new_eq_mod hWst, Nat.mod_mod_of_dvd _ hdvd]
  refine ⟨hinto, ?_⟩
  intro hge hcontra
  have hback := match_discs_some hcontra
  have hmod : spec.discs.getD i 0 % 2 ^ spec.bitlen < 2 ^ spec.bitlen :=
    Nat.mod_lt _ (Nat.two_pow_pos _)
  rw [hinto] at hback
  unfold UInt.value at hback
  omega

theorem c10_witness :
    BitEnum.into_bits ⟨2, [0, 1, 2, 5]⟩ 3 = 5 % 2 ^ 2 ∧
      BitEnum.try_from_bits ⟨2, [0, 1, 2, 5]⟩ (BitEnum.into_bits ⟨2, [0, 1, 2, 5]⟩ 3) ≠
        some 3 :=
  ⟨(c10_enum_oversized_discriminant ⟨2, [0, 1, 2, 5]⟩ 3 (by decide) (by decide)).1,
    (c10_enum_oversized_discriminant ⟨2, [0, 1, 2, 5]⟩ 3 (by decide) (by decide)).2
      (by decide)⟩

end Bitos
